import Mathlib

/-!
Verification of the component contracts exercised by the
`starting_guide_paper` notebook: parameter marshaling, deflector
superposition and ray shooting, pixel/angle coordinate transforms, lens
equation solving, linear amplitude inversion, point-source position
resolution and likelihood evaluation.  The notebook only calls these
components; each is modelled here from the specification document, over
exact rational arithmetic in place of floating point.
-/

namespace Lenstronomy

/-- Modelled from the spec: status of one parameter slot of the `Param`
side-table (the lenstronomy class `Sampling.parameters.Param` is not in this
repository).  A slot is either sampled (free, occupying one position of the
flat parameter vector), marked fixed at a stored value, or declared jointly
linked to the slot at another index, taking that slot's expanded value. -/
inductive SlotStatus where
  | free : SlotStatus
  | fixedAt : ℚ → SlotStatus
  | jointWith : ℕ → SlotStatus
deriving DecidableEq

/-- Modelled from the spec: one named parameter slot of the structured
parameter set, carrying its fixed/free/joint flag. -/
structure ParamSlot where
  name : String
  status : SlotStatus
deriving DecidableEq

/-- Out-of-range slots are treated as free with an empty name. -/
def defaultSlot : ParamSlot := ⟨"", SlotStatus.free⟩

/-- Status of the slot at index `i` of a configuration. -/
def statusAt (cfg : List ParamSlot) (i : ℕ) : SlotStatus :=
  (cfg.getD i defaultSlot).status

/-- Whether a slot occupies a position of the flat parameter vector. -/
def isFree (s : ParamSlot) : Bool :=
  match s.status with
  | SlotStatus.free => true
  | _ => false

namespace Param

/-- Modelled from the spec: `Param.num_param` — the number of sampled
(free) slots together with their names, in declaration order. -/
def num_param (cfg : List ParamSlot) : ℕ × List String :=
  ((cfg.filter fun s => isFree s).length,
   (cfg.filter fun s => isFree s).map fun s => s.name)

/-- Modelled from the spec: `Param.kwargs2args` — flatten a structured
parameter set to the vector of its free-slot values in declaration order,
skipping every slot marked fixed or joint. -/
def kwargs2args : List ParamSlot → List ℚ → List ℚ
  | [], _ => []
  | _ :: _, [] => []
  | ⟨_, SlotStatus.free⟩ :: cfg, v :: kw => v :: kwargs2args cfg kw
  | ⟨_, SlotStatus.fixedAt _⟩ :: cfg, _ :: kw => kwargs2args cfg kw
  | ⟨_, SlotStatus.jointWith _⟩ :: cfg, _ :: kw => kwargs2args cfg kw

/-- First expansion pass: free slots consume vector entries in order, fixed
slots take their stored value, joint slots get a placeholder. -/
def expandFree : List ParamSlot → List ℚ → List ℚ
  | [], _ => []
  | ⟨_, SlotStatus.free⟩ :: cfg, args => args.headD 0 :: expandFree cfg args.tail
  | ⟨_, SlotStatus.fixedAt v⟩ :: cfg, args => v :: expandFree cfg args
  | ⟨_, SlotStatus.jointWith _⟩ :: cfg, args => 0 :: expandFree cfg args

/-- Second expansion pass: every joint slot is populated from the
first-pass value of the slot it is linked to. -/
def resolveJoint (base : List ℚ) : List ParamSlot → List ℚ → List ℚ
  | [], _ => []
  | _ :: _, [] => []
  | ⟨_, SlotStatus.free⟩ :: cfg, v :: vs => v :: resolveJoint base cfg vs
  | ⟨_, SlotStatus.fixedAt _⟩ :: cfg, v :: vs => v :: resolveJoint base cfg vs
  | ⟨_, SlotStatus.jointWith j⟩ :: cfg, _ :: vs =>
      base.getD j 0 :: resolveJoint base cfg vs

/-- Full expansion of a flat vector into a structured parameter set. -/
def expandArgs (cfg : List ParamSlot) (args : List ℚ) : List ℚ :=
  resolveJoint (expandFree cfg args) cfg (expandFree cfg args)

/-- Modelled from the spec: `Param.args2kwargs` — expand a flat vector back
into the structured parameter set, rejecting vectors of the wrong length
(the `ParameterCountMismatch` case is the `none` result). -/
def args2kwargs (cfg : List ParamSlot) (args : List ℚ) : Option (List ℚ) :=
  if args.length = (num_param cfg).1 then some (expandArgs cfg args) else none

end Param

/-- Modelled from the spec: a deflector profile, as delivered by the
external profile registry — an evaluator mapping an image-plane coordinate
to this profile's deflection angle (the analytic profile formulas are out
of the spec's scope). -/
structure Deflector where
  alpha : ℚ → ℚ → ℚ × ℚ

/-- Modelled from the spec: total deflection of a superposition of
deflector profiles — the sum of the individual deflections. -/
def deflection (ds : List Deflector) (ra dec : ℚ) : ℚ × ℚ :=
  (ds.map fun d => d.alpha ra dec).sum

/-- Modelled from the spec: `LensModel.ray_shooting` — map an image-plane
coordinate to the source plane by subtracting each deflector's deflection
in turn. -/
def ray_shooting (ds : List Deflector) (ra dec : ℚ) : ℚ × ℚ :=
  ds.foldl (fun b d => b - d.alpha ra dec) (ra, dec)

/-- Modelled from the spec: the `Data` class coordinate frame — origin
angular coordinate at pixel (0,0) plus the 2×2 `transform_pix2angle`
affine matrix. -/
structure Data where
  ra_at_xy_0 : ℚ
  dec_at_xy_0 : ℚ
  t11 : ℚ
  t12 : ℚ
  t21 : ℚ
  t22 : ℚ
deriving DecidableEq

/-- Determinant of the stored pixel-to-angle transform matrix. -/
def Data.det (g : Data) : ℚ := g.t11 * g.t22 - g.t12 * g.t21

/-- Modelled from the spec: `Data.map_pix2coord` — affine map from a pixel
position to an angular coordinate. -/
def Data.map_pix2coord (g : Data) (x y : ℚ) : ℚ × ℚ :=
  (g.ra_at_xy_0 + g.t11 * x + g.t12 * y,
   g.dec_at_xy_0 + g.t21 * x + g.t22 * y)

/-- Modelled from the spec: `Data.map_coord2pix` — inverse affine map from
an angular coordinate back to a pixel position. -/
def Data.map_coord2pix (g : Data) (ra dec : ℚ) : ℚ × ℚ :=
  ((g.t22 * (ra - g.ra_at_xy_0) - g.t12 * (dec - g.dec_at_xy_0)) / g.det,
   (-(g.t21 * (ra - g.ra_at_xy_0)) + g.t11 * (dec - g.dec_at_xy_0)) / g.det)

/-- Modelled from the spec: the fatal static-configuration failure raised
at construction time. -/
inductive ConfigError where
  | singularTransform : ConfigError
deriving DecidableEq

/-- Modelled from the spec: `Data` construction — fails with `ConfigError`
when the transform matrix is singular. -/
def mkData (ra0 dec0 a b c d : ℚ) : Except ConfigError Data :=
  if a * d - b * c = 0 then Except.error ConfigError.singularTransform
  else Except.ok ⟨ra0, dec0, a, b, c, d⟩

/-- Squared euclidean distance between two angular coordinates. -/
def distSq (p q : ℚ × ℚ) : ℚ := (p.1 - q.1) ^ 2 + (p.2 - q.2) ^ 2

/-- Modelled from the spec:
`LensEquationSolver.image_position_from_source` — a grid search over a
finite candidate search domain, keeping every candidate whose ray-shot
source-plane position lies within the (squared) tolerance of the target
source position; an exhausted domain yields an empty list, never a throw. -/
def image_position_from_source (ds : List Deflector) (beta : ℚ × ℚ)
    (cands : List (ℚ × ℚ)) (tol : ℚ) : List (ℚ × ℚ) :=
  cands.filter fun c => decide (distSq (ray_shooting ds c.1 c.2) beta ≤ tol ^ 2)

/-- Modelled from the spec: the point-source position variants — a
source-plane position (images found by the lens equation solver) or
image-plane positions given directly. -/
inductive PointSourceType where
  | sourcePosition : ℚ → ℚ → PointSourceType
  | lensedPosition : List (ℚ × ℚ) → PointSourceType

/-- Modelled from the spec: `PointSource.image_position` — resolve the
image-plane positions of a point source: solve the lens equation for a
`SOURCE_POSITION` model, return the stored positions for a
`LENSED_POSITION` model. -/
def image_position (ds : List Deflector) (cands : List (ℚ × ℚ)) (tol : ℚ) :
    PointSourceType → List (ℚ × ℚ)
  | PointSourceType.sourcePosition ra dec =>
      image_position_from_source ds (ra, dec) cands tol
  | PointSourceType.lensedPosition xs => xs

/-- The design matrix of the linear inversion: column `i` is the basis
image of component `i` rendered with unit amplitude. -/
def designMatrix {k n : ℕ} (basis : Fin k → Fin n → ℚ) :
    Matrix (Fin n) (Fin k) ℚ :=
  Matrix.of fun p i => basis i p

/-- A noiseless image composed of the basis images with given linear
amplitudes: each pixel is the amplitude-weighted sum of the basis pixels. -/
def renderLinear {k n : ℕ} (basis : Fin k → Fin n → ℚ) (amps : Fin k → ℚ) :
    Fin n → ℚ :=
  fun p => ∑ i, amps i * basis i p

/-- Normal matrix of the joint least-squares system. -/
def normalMatrix {k n : ℕ} (basis : Fin k → Fin n → ℚ) :
    Matrix (Fin k) (Fin k) ℚ :=
  (designMatrix basis).transpose * designMatrix basis

/-- Explicit inverse of a square rational matrix via adjugate and
determinant. -/
def invMat {k : ℕ} (M : Matrix (Fin k) (Fin k) ℚ) :
    Matrix (Fin k) (Fin k) ℚ :=
  M.det⁻¹ • M.adjugate

/-- Modelled from the spec: `ImageModel.image_linear_solve` — solve the
joint least-squares system for all linear amplitudes at once through the
normal equations of the design matrix. -/
def image_linear_solve {k n : ℕ} (basis : Fin k → Fin n → ℚ)
    (d : Fin n → ℚ) : Fin k → ℚ :=
  (invMat (normalMatrix basis)).mulVec ((designMatrix basis).transpose.mulVec d)

/-- Modelled from the spec: the recoverable internal numerical failures of
a likelihood evaluation. -/
inductive NumFailure where
  | paramCountMismatch : NumFailure
  | noSolutionFound : NumFailure
deriving DecidableEq

/-- Modelled from the spec: the `LikelihoodModule` configuration — the
parameter side-table, the observed data, the forward model, the lens and
source-position builders used by the solver check, and the solver
settings. -/
structure LikelihoodModule where
  cfg : List ParamSlot
  image_data : List ℚ
  model_image : List ℚ → List ℚ
  lens_of : List ℚ → List Deflector
  source_of : List ℚ → ℚ × ℚ
  search_domain : List (ℚ × ℚ)
  solver_tolerance : ℚ
  check_solver : Bool

/-- Unweighted chi-square misfit between observed and modelled pixels. -/
def chi2 (data model : List ℚ) : ℚ :=
  ((data.zip model).map fun p => (p.1 - p.2) ^ 2).sum

/-- Modelled from the spec: the internal likelihood evaluation, which may
fail — a wrong-length vector is a `ParameterCountMismatch`, and an empty
solver result under `check_solver` is a `NoSolutionFound`. -/
def logL_internal (L : LikelihoodModule) (args : List ℚ) :
    Except NumFailure ℚ :=
  match Param.args2kwargs L.cfg args with
  | none => Except.error NumFailure.paramCountMismatch
  | some kw =>
    if L.check_solver &&
        (image_position_from_source (L.lens_of kw) (L.source_of kw)
          L.search_domain L.solver_tolerance).isEmpty
    then Except.error NumFailure.noSolutionFound
    else Except.ok (-(chi2 L.image_data (L.model_image kw)))

/-- Modelled from the spec: `LikelihoodModule.logL` — every internally
caught numerical failure is converted into a `⊥` (minus infinity) score;
no exception reaches the optimizer. -/
def LikelihoodModule.logL (L : LikelihoodModule) (args : List ℚ) :
    WithBot ℚ :=
  match logL_internal L args with
  | Except.error _ => ⊥
  | Except.ok v => (v : WithBot ℚ)

/-- Concrete slot table used to witness the marshaling theorems: a fixed
slope, two free parameters and a source center jointly linked to slot 2. -/
def cfgW : List ParamSlot :=
  [⟨"gamma", SlotStatus.fixedAt 2⟩, ⟨"theta_E", SlotStatus.free⟩,
   ⟨"center_x", SlotStatus.free⟩, ⟨"center_x_source", SlotStatus.jointWith 2⟩]

/-- Concrete structured parameter values matching `cfgW`. -/
def kwargsW : List ℚ := [2, 9, 1, 1]

/-- Concrete flat parameter vector of the two free slots of `cfgW`. -/
def argsW : List ℚ := [9, 1]

/-- Expected expansion of `argsW` under `cfgW`. -/
def outW : List ℚ := [2, 9, 1, 1]

/-- Concrete coordinate frame used to witness the round-trip theorem:
0.05 arcsec pixels, origin at (-2.5, -2.5), as in the notebook. -/
def dataW : Data := ⟨-5/2, -5/2, 1/20, 0, 0, 1/20⟩

/-- Concrete two-component unit basis used to witness the inversion. -/
def basisW : Fin 2 → Fin 2 → ℚ := fun i p => if i = p then 1 else 0

/-- Concrete linear amplitudes used to witness the inversion. -/
def ampsW : Fin 2 → ℚ := ![2, 3]

/-- Concrete noiseless synthetic image composed from `basisW` and
`ampsW`. -/
def dW : Fin 2 → ℚ := ![2, 3]

theorem statusAt_cons_succ (s : ParamSlot) (cfg : List ParamSlot) (i : ℕ) :
    statusAt (s :: cfg) (i + 1) = statusAt cfg i := rfl

theorem statusAt_cons_zero (s : ParamSlot) (cfg : List ParamSlot) :
    statusAt (s :: cfg) 0 = s.status := rfl

theorem lt_of_statusAt_fixed (cfg : List ParamSlot) (i : ℕ) (v : ℚ)
    (h : statusAt cfg i = SlotStatus.fixedAt v) : i < cfg.length := by
  by_contra hge
  have hle : cfg.length ≤ i := Nat.le_of_not_lt hge
  rw [statusAt, List.getD_eq_default _ _ hle] at h
  cases h

theorem length_expandFree (cfg : List ParamSlot) (args : List ℚ) :
    (Param.expandFree cfg args).length = cfg.length := by
  induction cfg generalizing args with
  | nil => rfl
  | cons s cfg ih =>
    obtain ⟨n, st⟩ := s
    cases st <;> simp [Param.expandFree, ih]

theorem length_kwargs2args (cfg : List ParamSlot) (kwargs : List ℚ)
    (h : kwargs.length = cfg.length) :
    (Param.kwargs2args cfg kwargs).length = (Param.num_param cfg).1 := by
  induction cfg generalizing kwargs with
  | nil =>
    cases kwargs with
    | nil => rfl
    | cons v kw => simp at h
  | cons s cfg ih =>
    cases kwargs with
    | nil => simp at h
    | cons v kw =>
      have h2 : kw.length = cfg.length := by simpa using h
      obtain ⟨n, st⟩ := s
      cases st <;>
        simp [Param.kwargs2args, Param.num_param, isFree, List.filter_cons,
          ih kw h2]

theorem getD_expandFree_fixed (cfg : List ParamSlot) :
    ∀ (args : List ℚ) (i : ℕ) (v : ℚ),
      statusAt cfg i = SlotStatus.fixedAt v →
      (Param.expandFree cfg args).getD i 0 = v := by
  induction cfg with
  | nil =>
    intro args i v h
    rw [statusAt, List.getD_eq_default _ _ (Nat.zero_le i)] at h
    cases h
  | cons s cfg ih =>
    intro args i v h
    obtain ⟨n, st⟩ := s
    cases i with
    | zero =>
      rw [statusAt_cons_zero] at h
      simp only at h
      subst h
      rfl
    | succ i =>
      rw [statusAt_cons_succ] at h
      cases st <;> simpa [Param.expandFree] using ih _ i v h

theorem getD_expandFree_free (cfg : List ParamSlot) :
    ∀ (kwargs : List ℚ) (i : ℕ), kwargs.length = cfg.length →
      i < cfg.length → statusAt cfg i = SlotStatus.free →
      (Param.expandFree cfg (Param.kwargs2args cfg kwargs)).getD i 0
        = kwargs.getD i 0 := by
  induction cfg with
  | nil =>
    intro kwargs i _ hi _
    cases hi
  | cons s cfg ih =>
    intro kwargs i hlen hi hfree
    cases kwargs with
    | nil => simp at hlen
    | cons v kw =>
      have h2 : kw.length = cfg.length := by simpa using hlen
      obtain ⟨n, st⟩ := s
      cases i with
      | zero =>
        rw [statusAt_cons_zero] at hfree
        simp only at hfree
        subst hfree
        rfl
      | succ i =>
        rw [statusAt_cons_succ] at hfree
        have hi2 : i < cfg.length := Nat.lt_of_succ_lt_succ hi
        cases st <;>
          simpa [Param.kwargs2args, Param.expandFree] using
            ih kw i h2 hi2 hfree

theorem getD_resolveJoint_joint (base : List ℚ) (cfg : List ParamSlot) :
    ∀ (vs : List ℚ) (i j : ℕ),
      statusAt cfg i = SlotStatus.jointWith j →
      i < cfg.length → i < vs.length →
      (Param.resolveJoint base cfg vs).getD i 0 = base.getD j 0 := by
  induction cfg with
  | nil =>
    intro vs i j _ hi _
    cases hi
  | cons s cfg ih =>
    intro vs i j hst hi hvs
    cases vs with
    | nil => cases hvs
    | cons v vs =>
      obtain ⟨n, st⟩ := s
      cases i with
      | zero =>
        rw [statusAt_cons_zero] at hst
        simp only at hst
        subst hst
        rfl
      | succ i =>
        rw [statusAt_cons_succ] at hst
        have hi2 : i < cfg.length := Nat.lt_of_succ_lt_succ hi
        have hvs2 : i < vs.length := Nat.lt_of_succ_lt_succ hvs
        cases st <;>
          simpa [Param.resolveJoint] using ih vs i j hst hi2 hvs2

theorem getD_resolveJoint_notJoint (base : List ℚ) (cfg : List ParamSlot) :
    ∀ (vs : List ℚ) (i : ℕ),
      (∀ j, statusAt cfg i ≠ SlotStatus.jointWith j) →
      i < cfg.length → i < vs.length →
      (Param.resolveJoint base cfg vs).getD i 0 = vs.getD i 0 := by
  induction cfg with
  | nil =>
    intro vs i _ hi _
    cases hi
  | cons s cfg ih =>
    intro vs i hnj hi hvs
    cases vs with
    | nil => cases hvs
    | cons v vs =>
      obtain ⟨n, st⟩ := s
      cases i with
      | zero =>
        cases st with
        | free => rfl
        | fixedAt w => rfl
        | jointWith j => exact absurd (statusAt_cons_zero _ cfg) (by simpa using hnj j)
      | succ i =>
        have hnj2 : ∀ j, statusAt cfg i ≠ SlotStatus.jointWith j := by
          intro j
          rw [← statusAt_cons_succ ⟨n, st⟩ cfg i]
          exact hnj j
        have hi2 : i < cfg.length := Nat.lt_of_succ_lt_succ hi
        have hvs2 : i < vs.length := Nat.lt_of_succ_lt_succ hvs
        cases st <;>
          simpa [Param.resolveJoint] using ih vs i hnj2 hi2 hvs2

/-- C1: converting a structured parameter set to a flat vector with
`kwargs2args` and back with `args2kwargs` succeeds and reproduces every
free parameter value exactly, and every slot marked fixed is populated
with its stored fixed value regardless of the content of the flat
vector. -/
theorem param_roundtrip_c1 (cfg : List ParamSlot) (kwargs : List ℚ)
    (h : kwargs.length = cfg.length) :
    Param.args2kwargs cfg (Param.kwargs2args cfg kwargs)
        = some (Param.expandArgs cfg (Param.kwargs2args cfg kwargs))
    ∧ (∀ i, i < cfg.length → statusAt cfg i = SlotStatus.free →
        (Param.expandArgs cfg (Param.kwargs2args cfg kwargs)).getD i 0
          = kwargs.getD i 0)
    ∧ ∀ (args : List ℚ) (i : ℕ) (v : ℚ),
        statusAt cfg i = SlotStatus.fixedAt v →
        (Param.expandArgs cfg args).getD i 0 = v := by
  refine ⟨?_, ?_, ?_⟩
  · simp [Param.args2kwargs, length_kwargs2args cfg kwargs h]
  · intro i hi hfree
    have hnj : ∀ j, statusAt cfg i ≠ SlotStatus.jointWith j := by
      intro j hj
      rw [hfree] at hj
      cases hj
    unfold Param.expandArgs
    rw [getD_resolveJoint_notJoint _ cfg _ i hnj hi
      (by rw [length_expandFree]; exact hi)]
    exact getD_expandFree_free cfg kwargs i h hi hfree
  · intro args i v hfix
    have hi : i < cfg.length := lt_of_statusAt_fixed cfg i v hfix
    have hnj : ∀ j, statusAt cfg i ≠ SlotStatus.jointWith j := by
      intro j hj
      rw [hfix] at hj
      cases hj
    unfold Param.expandArgs
    rw [getD_resolveJoint_notJoint _ cfg _ i hnj hi
      (by rw [length_expandFree]; exact hi)]
    exact getD_expandFree_fixed cfg args i v hfix

/-- C1 witness: the round-trip theorem instantiated on the concrete slot
table `cfgW` and parameter values `kwargsW`. -/
theorem param_roundtrip_c1_witness :
    kwargsW.length = cfgW.length
    ∧ (Param.args2kwargs cfgW (Param.kwargs2args cfgW kwargsW)
        = some (Param.expandArgs cfgW (Param.kwargs2args cfgW kwargsW))
      ∧ (∀ i, i < cfgW.length → statusAt cfgW i = SlotStatus.free →
          (Param.expandArgs cfgW (Param.kwargs2args cfgW kwargsW)).getD i 0
            = kwargsW.getD i 0)
      ∧ ∀ (args : List ℚ) (i : ℕ) (v : ℚ),
          statusAt cfgW i = SlotStatus.fixedAt v →
          (Param.expandArgs cfgW args).getD i 0 = v) :=
  ⟨by decide, param_roundtrip_c1 cfgW kwargsW (by decide)⟩

/-- C7: for a pair of jointly linked parameters (slot `i` linked to the
free slot `j`), only the linked-to slot occupies a position of the flat
vector, and on expansion both slots are populated with the same value. -/
theorem joint_param_c7 (cfg : List ParamSlot) (i j : ℕ)
    (args out : List ℚ)
    (hij : statusAt cfg i = SlotStatus.jointWith j)
    (hj : statusAt cfg j = SlotStatus.free)
    (hi : i < cfg.length) (hjl : j < cfg.length)
    (h : Param.args2kwargs cfg args = some out) :
    isFree (cfg.getD i defaultSlot) = false
    ∧ isFree (cfg.getD j defaultSlot) = true
    ∧ out.getD i 0 = out.getD j 0 := by
  have hout : out = Param.expandArgs cfg args := by
    unfold Param.args2kwargs at h
    split at h
    · exact (Option.some.injEq _ _ ▸ h).symm
    · cases h
  have hbase : (Param.expandFree cfg args).length = cfg.length :=
    length_expandFree cfg args
  refine ⟨?_, ?_, ?_⟩
  · rw [statusAt] at hij
    unfold isFree
    rw [hij]
  · rw [statusAt] at hj
    unfold isFree
    rw [hj]
  · subst hout
    unfold Param.expandArgs
    rw [getD_resolveJoint_joint _ cfg _ i j hij hi (by rw [hbase]; exact hi)]
    rw [getD_resolveJoint_notJoint _ cfg _ j
      (by intro j2 hj2; rw [hj] at hj2; cases hj2) hjl
      (by rw [hbase]; exact hjl)]

/-- C7 witness: the joint-parameter theorem instantiated on `cfgW`, whose
slot 3 is jointly linked to the free slot 2, with the flat vector `argsW`
expanding to `outW`. -/
theorem joint_param_c7_witness :
    statusAt cfgW 3 = SlotStatus.jointWith 2
    ∧ statusAt cfgW 2 = SlotStatus.free
    ∧ 3 < cfgW.length ∧ 2 < cfgW.length
    ∧ Param.args2kwargs cfgW argsW = some outW
    ∧ (isFree (cfgW.getD 3 defaultSlot) = false
      ∧ isFree (cfgW.getD 2 defaultSlot) = true
      ∧ outW.getD 3 0 = outW.getD 2 0) :=
  ⟨by decide, by decide, by decide, by decide, by decide,
   joint_param_c7 cfgW 3 2 argsW outW (by decide) (by decide) (by decide)
     (by decide) (by decide)⟩

/-- C10: the flat vector produced by `kwargs2args` has length equal to the
count returned by `num_param`, the name list of `num_param` has that same
length, and `args2kwargs` succeeds on every vector of that length. -/
theorem num_param_consistent_c10 (cfg : List ParamSlot) (kwargs : List ℚ)
    (h : kwargs.length = cfg.length) :
    (Param.kwargs2args cfg kwargs).length = (Param.num_param cfg).1
    ∧ (Param.num_param cfg).2.length = (Param.num_param cfg).1
    ∧ ∀ (args : List ℚ), args.length = (Param.num_param cfg).1 →
        (Param.args2kwargs cfg args).isSome = true := by
  refine ⟨length_kwargs2args cfg kwargs h, ?_, ?_⟩
  · simp [Param.num_param]
  · intro args ha
    simp [Param.args2kwargs, ha]

/-- C10 witness: the vector-layout consistency theorem instantiated on the
concrete slot table `cfgW` and parameter values `kwargsW`. -/
theorem num_param_consistent_c10_witness :
    kwargsW.length = cfgW.length
    ∧ ((Param.kwargs2args cfgW kwargsW).length = (Param.num_param cfgW).1
      ∧ (Param.num_param cfgW).2.length = (Param.num_param cfgW).1
      ∧ ∀ (args : List ℚ), args.length = (Param.num_param cfgW).1 →
          (Param.args2kwargs cfgW args).isSome = true) :=
  ⟨by decide, num_param_consistent_c10 cfgW kwargsW (by decide)⟩

/-- C2: the deflection of a concatenated deflector list equals the
component-wise sum of the deflections of the two lists — deflection is
additive under superposition. -/
theorem deflection_additive_c2 (A B : List Deflector) (ra dec : ℚ) :
    (deflection (A ++ B) ra dec).1
        = (deflection A ra dec).1 + (deflection B ra dec).1
    ∧ (deflection (A ++ B) ra dec).2
        = (deflection A ra dec).2 + (deflection B ra dec).2 := by
  have hsum : deflection (A ++ B) ra dec
      = deflection A ra dec + deflection B ra dec := by
    simp [deflection]
  exact ⟨by rw [hsum]; rfl, by rw [hsum]; rfl⟩

theorem foldl_sub_sum (ra dec : ℚ) :
    ∀ (l : List Deflector) (p : ℚ × ℚ),
      l.foldl (fun b d => b - d.alpha ra dec) p
        = p - (l.map fun d => d.alpha ra dec).sum := by
  intro l
  induction l with
  | nil => intro p; simp
  | cons a l ih =>
    intro p
    rw [List.foldl_cons, ih (p - a.alpha ra dec), List.map_cons,
      List.sum_cons, sub_sub]

/-- C8: ray shooting returns exactly the image-plane coordinate minus the
summed deflection of the deflector list at that coordinate. -/
theorem ray_shooting_c8 (ds : List Deflector) (ra dec : ℚ) :
    ray_shooting ds ra dec
      = (ra - (deflection ds ra dec).1, dec - (deflection ds ra dec).2) := by
  unfold ray_shooting deflection
  rw [foldl_sub_sum ra dec ds (ra, dec)]
  rfl

/-- C3: on a grid whose affine transform is invertible, mapping a pixel
position to an angular coordinate and back returns the original pixel
position exactly. -/
theorem coord_roundtrip_c3 (g : Data) (hdet : g.det ≠ 0) (x y : ℚ) :
    g.map_coord2pix (g.map_pix2coord x y).1 (g.map_pix2coord x y).2
      = (x, y) := by
  unfold Data.map_coord2pix Data.map_pix2coord
  rw [Prod.mk.injEq]
  constructor
  · rw [div_eq_iff hdet]
    unfold Data.det
    ring
  · rw [div_eq_iff hdet]
    unfold Data.det
    ring

/-- C3 witness: the round-trip theorem instantiated on the notebook's
0.05-arcsec-pixel frame `dataW` at pixel position (20, 10). -/
theorem coord_roundtrip_c3_witness :
    dataW.det ≠ 0
    ∧ dataW.map_coord2pix (dataW.map_pix2coord 20 10).1
        (dataW.map_pix2coord 20 10).2 = (20, 10) :=
  ⟨by norm_num [dataW, Data.det],
   coord_roundtrip_c3 dataW (by norm_num [dataW, Data.det]) 20 10⟩

/-- C5: the lens equation solver returns exactly those candidates of the
search domain whose ray-shot source-plane position lies within the stated
tolerance of the given source position — it keeps all of them (never
silently drops one), each returned position ray-shoots back within
tolerance, and an exhausted domain yields the empty list. -/
theorem lens_solver_c5 (ds : List Deflector) (beta : ℚ × ℚ)
    (cands : List (ℚ × ℚ)) (tol : ℚ) (c : ℚ × ℚ) :
    c ∈ image_position_from_source ds beta cands tol
      ↔ c ∈ cands ∧ distSq (ray_shooting ds c.1 c.2) beta ≤ tol ^ 2 := by
  simp [image_position_from_source, List.mem_filter]

/-- C9: for a point source of type `LENSED_POSITION`, `image_position`
returns exactly the supplied image-plane positions, unchanged by the lens
model. -/
theorem lensed_position_c9 (ds : List Deflector) (cands : List (ℚ × ℚ))
    (tol : ℚ) (xs : List (ℚ × ℚ)) :
    image_position ds cands tol (PointSourceType.lensedPosition xs) = xs :=
  rfl

/-- C4: likelihood evaluation is total — it returns minus infinity exactly
when the internal evaluation caught a numerical failure, and the internal
scalar score otherwise; no exception reaches the optimizer. -/
theorem logL_total_c4 (L : LikelihoodModule) (args : List ℚ) :
    (L.logL args = ⊥ ↔ ∃ e, logL_internal L args = Except.error e)
    ∧ ∀ v : ℚ, logL_internal L args = Except.ok v →
        L.logL args = (v : WithBot ℚ) := by
  cases h : logL_internal L args with
  | error e =>
    refine ⟨⟨fun _ => ⟨e, rfl⟩, fun _ => ?_⟩, fun v hv => ?_⟩
    · unfold LikelihoodModule.logL
      rw [h]
    · cases hv
  | ok w =>
    refine ⟨⟨fun hb => ?_, fun he => ?_⟩, fun v hv => ?_⟩
    · exfalso
      unfold LikelihoodModule.logL at hb
      rw [h] at hb
      exact WithBot.coe_ne_bot hb
    · obtain ⟨e, he⟩ := he
      cases he
    · cases hv
      unfold LikelihoodModule.logL
      rw [h]

theorem renderLinear_eq_mulVec {k n : ℕ} (basis : Fin k → Fin n → ℚ)
    (amps : Fin k → ℚ) :
    renderLinear basis amps = (designMatrix basis).mulVec amps := by
  funext p
  simp [renderLinear, designMatrix, Matrix.mulVec, Matrix.dotProduct,
    mul_comm]

theorem invMat_mul_self {k : ℕ} (M : Matrix (Fin k) (Fin k) ℚ)
    (hdet : M.det ≠ 0) : invMat M * M = 1 := by
  unfold invMat
  rw [Matrix.smul_mul, Matrix.adjugate_mul, smul_smul,
    inv_mul_cancel₀ hdet, one_smul]

/-- C6: when the observed image is a noiseless composition of the
unit-amplitude basis images with known amplitudes and the joint
least-squares system is non-degenerate, the linear inversion recovers
exactly those amplitudes. -/
theorem linear_inversion_c6 {k n : ℕ} (basis : Fin k → Fin n → ℚ)
    (amps : Fin k → ℚ) (d : Fin n → ℚ)
    (hdet : (normalMatrix basis).det ≠ 0)
    (hd : d = renderLinear basis amps) :
    image_linear_solve basis d = amps := by
  unfold image_linear_solve
  rw [hd, renderLinear_eq_mulVec, Matrix.mulVec_mulVec, Matrix.mulVec_mulVec,
    Matrix.mul_assoc,
    show (designMatrix basis).transpose * designMatrix basis
      = normalMatrix basis from rfl,
    invMat_mul_self (normalMatrix basis) hdet, Matrix.one_mulVec]

/-- C6 witness: the inversion theorem instantiated on the concrete
two-component unit basis `basisW` with amplitudes `ampsW` composing the
noiseless image `dW`. -/
theorem linear_inversion_c6_witness :
    (normalMatrix basisW).det ≠ 0
    ∧ dW = renderLinear basisW ampsW
    ∧ image_linear_solve basisW dW = ampsW :=
  ⟨by
    norm_num [normalMatrix, designMatrix, basisW, Matrix.det_fin_two,
      Matrix.mul_apply, Matrix.transpose_apply, Fin.sum_univ_two],
   by
    funext p
    fin_cases p <;>
      norm_num [renderLinear, basisW, ampsW, dW, Fin.sum_univ_two],
   linear_inversion_c6 basisW ampsW dW
    (by
      norm_num [normalMatrix, designMatrix, basisW, Matrix.det_fin_two,
        Matrix.mul_apply, Matrix.transpose_apply, Fin.sum_univ_two])
    (by
      funext p
      fin_cases p <;>
        norm_num [renderLinear, basisW, ampsW, dW, Fin.sum_univ_two])⟩

end Lenstronomy
